import Mathlib

/-!
Verification development for the coroutine driver of `antivanov/coroutine.js`.

The repository's observable contract is fixed by its test suite
(`src/karma.conf.js`, jasmine specs) and the design document. The driver
itself (`coroutine.js`) is not present under `src/`, so its components —
the Value Normalizer, the Step Driver, the Entry Dispatcher and the Result
Future — are modelled from the spec, faithful to its words, and checked
against the behaviours the test suite pins down.

The embedding is single-threaded and abstracts real time: an awaitable is
represented by how it eventually settles (fulfilled with a value, rejected
with an error, or never settling at all), which is the only aspect the
strictly-ordered driver can observe. Driving is instrumented with an event
trace (target invocations, `resume(v)` and `abort(e)` calls) so that claims
about "invokes exactly once", "resumes with exactly the previous step's
value" and "no resume beyond step i" become statements about the trace.
-/

/-- Host values flowing through a driven computation. `undef` is the host's
no-value (`undefined`); `factoryRef n` is an opaque reference to a
resumable-computation factory that is being passed around as data (the
driver has no way to invoke a `JSVal`, mirroring the spec's rule that only
the Entry Dispatcher ever invokes a target). The three awaitable shapes
record how the awaitable eventually settles: `fulfilledP v` settles
successfully with `v` (chaining through `v` if `v` is itself awaitable,
as host promise chaining does), `rejectedP e` rejects with `e`, and
`pendingForever` never settles. -/
inductive JSVal where
  | undef : JSVal
  | vstr : String → JSVal
  | vnum : Int → JSVal
  | factoryRef : Nat → JSVal
  | fulfilledP : JSVal → JSVal
  | rejectedP : JSVal → JSVal
  | pendingForever : JSVal
deriving DecidableEq, Repr

/-- The eventual observation of an awaitable (or of a whole drive): it
settles to a value, settles to an error, or never settles. -/
inductive Outcome where
  | value : JSVal → Outcome
  | error : JSVal → Outcome
  | never : Outcome
deriving DecidableEq, Repr

/-- Modelled from the spec: capability test used by the Value Normalizer
(the value "already exposes fulfillment/rejection-callback attachment").
True exactly on the awaitable shapes. -/
def isAwaitable : JSVal → Bool
  | JSVal.fulfilledP _ => true
  | JSVal.rejectedP _ => true
  | JSVal.pendingForever => true
  | _ => false

/-- Modelled from the spec: the Value Normalizer (`coroutine.js` is absent
from `src/`). A pure mapping: an awaitable is returned unchanged, any
other value is wrapped in an immediately-fulfilled awaitable. -/
def normalizeValue (v : JSVal) : JSVal :=
  if isAwaitable v then v else JSVal.fulfilledP v

/-- How a value behaves when awaited: chaining a fulfillment through nested
awaitables (host `then` never delivers an awaitable), a rejection delivers
its error as-is, and a non-awaitable value is immediately available. -/
def settle : JSVal → Outcome
  | JSVal.fulfilledP v => settle v
  | JSVal.rejectedP e => Outcome.error e
  | JSVal.pendingForever => Outcome.never
  | v => Outcome.value v

/-- The Result Future of an already-determined outcome, as a value: used to
model yielding the future returned by an inner `coroutine(...)` call. -/
def futureOf : Outcome → JSVal
  | Outcome.value v => JSVal.fulfilledP v
  | Outcome.error e => JSVal.rejectedP e
  | Outcome.never => JSVal.pendingForever

/-- One step result of a resumable computation, seen from the driver.
`done v` is `{done:true, value:v}`; `thrown e` is `resume`/`abort` itself
throwing `e` synchronously (an uncaught exception escaping the body);
`yielded v res ab` is `{done:false, value:v}` together with the suspended
computation's two continuations: `res w` is what `resume(w)` produces and
`ab e` is what `abort(e)` produces (`abort` giving the computation the
chance to recover internally). -/
inductive Step where
  | done : JSVal → Step
  | thrown : JSVal → Step
  | yielded : JSVal → (JSVal → Step) → (JSVal → Step) → Step

/-- Observable events of one invocation: the Entry Dispatcher invoking the
target with a self-binding context and arguments, and the Step Driver
calling `resume v` / `abort e` on the computation. -/
inductive Event where
  | invoked : JSVal → List JSVal → Event
  | resumed : JSVal → Event
  | aborted : JSVal → Event
deriving DecidableEq, Repr

/-- Modelled from the spec: the Step Driver loop (`coroutine.js` is absent
from `src/`). On `{done:false, value}` the value is normalized; fulfillment
with `w` resumes the computation with `w`, rejection with `e` injects `e`
via `abort e`, and an awaitable that never settles leaves the Result Future
pending forever. On `{done:true, value}` the returned value is normalized
and awaited exactly like a per-step value. A synchronous throw out of
`resume`/`abort` settles failure immediately. The second component is the
trace of `resume`/`abort` events, in order. -/
def driveT : Step → Outcome × List Event
  | Step.done v => (settle (normalizeValue v), [])
  | Step.thrown e => (Outcome.error e, [])
  | Step.yielded v res ab =>
    match settle (normalizeValue v) with
    | Outcome.value w =>
      ((driveT (res w)).1, Event.resumed w :: (driveT (res w)).2)
    | Outcome.error e =>
      ((driveT (ab e)).1, Event.aborted e :: (driveT (ab e)).2)
    | Outcome.never => (Outcome.never, [])

/-- A resumable-computation instance, suspended before its first step: the
function from the first `resume` argument to the first step result. -/
def Gen : Type := JSVal → Step

/-- Modelled from the spec: driving one instance to completion. The start
transition is `resume(undefined)`, recorded at the head of the trace. -/
def driveGen (g : Gen) : Outcome × List Event :=
  ((driveT (g JSVal.undef)).1,
    Event.resumed JSVal.undef :: (driveT (g JSVal.undef)).2)

/-- What invoking an ordinary callable produces: a normal return value, or
a synchronous throw. -/
inductive CallResult where
  | ret : JSVal → CallResult
  | exn : JSVal → CallResult

/-- The shapes an invocation target can take, per the spec's polymorphic
dispatch: a plain value, an ordinary callable, or a resumable-computation
factory. Callables and factories receive the self-binding context and the
argument list. -/
inductive Target where
  | plain : JSVal → Target
  | callable : (JSVal → List JSVal → CallResult) → Target
  | factory : (JSVal → List JSVal → Gen) → Target

/-- Modelled from the spec: the Entry Dispatcher, the public entry point
`coroutine` (`coroutine.js` is absent from `src/`), with the self-binding
context explicit. A plain value is normalized and resolved to. An ordinary
callable is invoked exactly once, synchronously, with the arguments and
context; a normal return is chained to if awaitable and fulfilled with
otherwise, and a synchronous throw rejects immediately with no step ever
starting. A factory is invoked once to obtain the instance, which is handed
to the Step Driver. The trace records the invocation. -/
def coroutine (ctx : JSVal) (t : Target) (args : List JSVal) :
    Outcome × List Event :=
  match t with
  | Target.plain v => (settle (normalizeValue v), [])
  | Target.callable f =>
    match f ctx args with
    | CallResult.ret v => (settle v, [Event.invoked ctx args])
    | CallResult.exn e => (Outcome.error e, [Event.invoked ctx args])
  | Target.factory f =>
    ((driveGen (f ctx args)).1,
      Event.invoked ctx args :: (driveGen (f ctx args)).2)

/-- The straight-line computation body used to state the sequencing claims:
`genBody fin acc ys` yields the values of `ys` one suspend point at a time,
records each value the driver resumes it with after `acc`, does not catch
injected errors (its `abort` continuation rethrows), and finally returns
`fin` applied to all recorded values. -/
def genBody (fin : List JSVal → JSVal) (acc : List JSVal) :
    List JSVal → Step
  | [] => Step.done (fin acc)
  | y :: ys =>
    Step.yielded y (fun w => genBody fin (acc ++ [w]) ys)
      (fun e => Step.thrown e)

/-- The instance form of `genBody`: suspended before its first step, it
discards the initial `resume(undefined)` argument, as a host generator
does. -/
def mkGen (fin : List JSVal → JSVal) (ys : List JSVal) : Gen :=
  fun _ => genBody fin [] ys

/-- `stepsTo ys vs` holds when the i-th yielded value `ys[i]`, once
normalized, settles successfully with exactly `vs[i]` — the premise of the
in-sequence fulfillment claims. -/
def stepsTo : List JSVal → List JSVal → Bool
  | [], [] => true
  | y :: ys, v :: vs =>
    decide (settle (normalizeValue y) = Outcome.value v) && stepsTo ys vs
  | _, _ => false

/-- Modelled from the spec: the Result Future's state — Pending, or settled
Fulfilled(value) / Rejected(error). -/
inductive FState where
  | pending : FState
  | fulfilledF : JSVal → FState
  | rejectedF : JSVal → FState
deriving DecidableEq, Repr

/-- A settlement attempt against a Result Future: fulfill with a value or
reject with an error. -/
inductive SAttempt where
  | fulfillA : JSVal → SAttempt
  | rejectA : JSVal → SAttempt
deriving DecidableEq, Repr

/-- Modelled from the spec: one settlement attempt on the Result Future,
guarded by the explicit three-state tag so only the first settlement wins;
an attempt against an already-settled future is a no-op, returning the
state unchanged rather than raising an error. -/
def applyAttempt : FState → SAttempt → FState
  | FState.pending, SAttempt.fulfillA v => FState.fulfilledF v
  | FState.pending, SAttempt.rejectA e => FState.rejectedF e
  | s, _ => s

/-- A whole sequence of settlement attempts applied in order. -/
def runAttempts : FState → List SAttempt → FState
  | s, [] => s
  | s, a :: rest => runAttempts (applyAttempt s a) rest

/-- Inlining a computation at a suspend point: `inlineAt inner k ka` is the
computation that runs `inner`'s body in place, inside the suspend point
whose resume continuation is `k` and whose abort continuation is `ka` —
`inner`'s suspend points happen directly, an exception escaping `inner`
reaches the surrounding handler `ka`, and `inner`'s return value is yielded
at the original suspend point (so it is awaited there, exactly as driving
`inner` separately would await its terminal value). -/
def inlineAt : Step → (JSVal → Step) → (JSVal → Step) → Step
  | Step.done v, k, ka => Step.yielded v k ka
  | Step.thrown e, _, ka => ka e
  | Step.yielded v res ab, k, ka =>
    Step.yielded v (fun w => inlineAt (res w) k ka)
      (fun e => inlineAt (ab e) k ka)

lemma settle_normalizeValue (v : JSVal) :
    settle (normalizeValue v) = settle v := by
  cases v <;> simp [normalizeValue, isAwaitable, settle]

lemma normalizeValue_of_awaitable (v : JSVal) (h : isAwaitable v = true) :
    normalizeValue v = v := by
  simp [normalizeValue, h]

lemma settle_of_not_awaitable (v : JSVal) (h : isAwaitable v = false) :
    settle v = Outcome.value v := by
  cases v <;> simp_all [isAwaitable, settle]

lemma settle_value_not_awaitable (v : JSVal) :
    ∀ w, settle v = Outcome.value w → isAwaitable w = false := by
  induction v with
  | fulfilledP u ih => intro w h; exact ih w (by simpa [settle] using h)
  | rejectedP e => intro w h; simp [settle] at h
  | pendingForever => intro w h; simp [settle] at h
  | undef => intro w h; rw [show settle JSVal.undef = Outcome.value JSVal.undef from rfl] at h
             cases h; rfl
  | vstr s => intro w h; rw [show settle (JSVal.vstr s) = Outcome.value (JSVal.vstr s) from rfl] at h
              cases h; rfl
  | vnum n => intro w h; rw [show settle (JSVal.vnum n) = Outcome.value (JSVal.vnum n) from rfl] at h
              cases h; rfl
  | factoryRef n => intro w h; rw [show settle (JSVal.factoryRef n) = Outcome.value (JSVal.factoryRef n) from rfl] at h
                    cases h; rfl

lemma driveT_yielded_value (v : JSVal) (res ab : JSVal → Step) (w : JSVal)
    (h : settle (normalizeValue v) = Outcome.value w) :
    driveT (Step.yielded v res ab)
      = ((driveT (res w)).1, Event.resumed w :: (driveT (res w)).2) := by
  simp [driveT, h]

lemma driveT_yielded_error (v : JSVal) (res ab : JSVal → Step) (e : JSVal)
    (h : settle (normalizeValue v) = Outcome.error e) :
    driveT (Step.yielded v res ab)
      = ((driveT (ab e)).1, Event.aborted e :: (driveT (ab e)).2) := by
  simp [driveT, h]

lemma driveT_yielded_never (v : JSVal) (res ab : JSVal → Step)
    (h : settle (normalizeValue v) = Outcome.never) :
    driveT (Step.yielded v res ab) = (Outcome.never, []) := by
  simp [driveT, h]

lemma driveT_value_not_awaitable (s : Step) :
    ∀ w, (driveT s).1 = Outcome.value w → isAwaitable w = false := by
  induction s with
  | done v => intro w h
              exact settle_value_not_awaitable (normalizeValue v) w (by simpa [driveT] using h)
  | thrown e => intro w h; simp [driveT] at h
  | yielded v res ab ihres ihab =>
    intro w h
    rcases ho : settle (normalizeValue v) with u | e
    · rw [driveT_yielded_value v res ab _ ho] at h
      exact ihres u w h
    · rw [driveT_yielded_error v res ab _ ho] at h
      exact ihab e w h
    · rw [driveT_yielded_never v res ab ho] at h
      simp at h

lemma settle_futureOf_driveT (s : Step) :
    settle (futureOf (driveT s).1) = (driveT s).1 := by
  rcases h : (driveT s).1 with w | e
  · have hw := driveT_value_not_awaitable s w h
    simp [futureOf, settle, settle_of_not_awaitable w hw]
  · simp [futureOf, settle]
  · simp [futureOf, settle]

lemma driveT_genBody (fin : List JSVal → JSVal) :
    ∀ ys vs acc, stepsTo ys vs = true →
    driveT (genBody fin acc ys)
      = (settle (normalizeValue (fin (acc ++ vs))), vs.map Event.resumed) := by
  intro ys
  induction ys with
  | nil =>
    intro vs acc h
    cases vs with
    | nil => simp [genBody, driveT]
    | cons v vs => simp [stepsTo] at h
  | cons y ys ih =>
    intro vs acc h
    cases vs with
    | nil => simp [stepsTo] at h
    | cons v vs =>
      simp only [stepsTo, Bool.and_eq_true, decide_eq_true_eq] at h
      rw [genBody, driveT_yielded_value _ _ _ _ h.1, ih vs (acc ++ [v]) h.2]
      simp

lemma driveT_genBody_front (fin : List JSVal → JSVal) :
    ∀ pre vs acc rest, stepsTo pre vs = true →
    driveT (genBody fin acc (pre ++ rest))
      = ((driveT (genBody fin (acc ++ vs) rest)).1,
         vs.map Event.resumed ++ (driveT (genBody fin (acc ++ vs) rest)).2) := by
  intro pre
  induction pre with
  | nil =>
    intro vs acc rest h
    cases vs with
    | nil => simp
    | cons v vs => simp [stepsTo] at h
  | cons y pre ih =>
    intro vs acc rest h
    cases vs with
    | nil => simp [stepsTo] at h
    | cons v vs =>
      simp only [stepsTo, Bool.and_eq_true, decide_eq_true_eq] at h
      rw [List.cons_append, genBody, driveT_yielded_value _ _ _ _ h.1,
        ih vs (acc ++ [v]) rest h.2]
      simp

/-- Claim C1: a computation that yields k pending awaitables fulfilling in
sequence with v1..vk is resumed after each suspend point with exactly the
previous step's fulfilled value, in order (the trace head is the starting
`resume(undefined)` transition), and the Result Future settles by awaiting
the computation's terminal return value: the outcome is
`settle (normalizeValue (fin vs))`, which awaits the return value first
when it is itself awaitable and is plain fulfillment otherwise. -/
theorem claim1_yields_in_sequence (fin : List JSVal → JSVal)
    (ys vs : List JSVal)
    (hAwait : ys.all isAwaitable = true) (hSeq : stepsTo ys vs = true) :
    driveGen (mkGen fin ys)
      = (settle (normalizeValue (fin vs)),
         Event.resumed JSVal.undef :: vs.map Event.resumed) := by
  simp only [driveGen, mkGen]
  rw [driveT_genBody fin ys vs [] hSeq]
  simp

theorem claim1_witness :
    ([JSVal.fulfilledP (JSVal.vstr "a"),
      JSVal.fulfilledP (JSVal.vstr "b")].all isAwaitable = true)
    ∧ stepsTo [JSVal.fulfilledP (JSVal.vstr "a"),
        JSVal.fulfilledP (JSVal.vstr "b")] [JSVal.vstr "a", JSVal.vstr "b"]
        = true
    ∧ driveGen (mkGen (fun _ => JSVal.fulfilledP (JSVal.vstr "c"))
        [JSVal.fulfilledP (JSVal.vstr "a"), JSVal.fulfilledP (JSVal.vstr "b")])
      = (settle (normalizeValue
          ((fun _ => JSVal.fulfilledP (JSVal.vstr "c"))
            [JSVal.vstr "a", JSVal.vstr "b"])),
         Event.resumed JSVal.undef ::
           [JSVal.vstr "a", JSVal.vstr "b"].map Event.resumed) :=
  ⟨by decide, by decide,
    claim1_yields_in_sequence _ _ _ (by decide) (by decide)⟩

/-- Claim C2: when the i-th yielded awaitable rejects with `e`, the driver
injects `e` via `abort e` at that suspend point (second conjunct: for an
arbitrary suspended computation, the driver's next call is `abort e`,
letting it attempt internal recovery); for a computation that does not
catch internally (its `abort` rethrows, as `genBody`'s does), the Result
Future rejects with `e` and the trace shows no resume beyond step i: it
ends at the `aborted e` event. -/
theorem claim2_reject_aborts (fin : List JSVal → JSVal)
    (pre post vs : List JSVal) (y e : JSVal)
    (res2 ab2 : JSVal → Step)
    (hSeq : stepsTo pre vs = true)
    (hAwait : isAwaitable y = true)
    (hRej : settle (normalizeValue y) = Outcome.error e) :
    driveGen (mkGen fin (pre ++ y :: post))
      = (Outcome.error e,
         Event.resumed JSVal.undef ::
           (vs.map Event.resumed ++ [Event.aborted e]))
    ∧ driveT (Step.yielded y res2 ab2)
      = ((driveT (ab2 e)).1, Event.aborted e :: (driveT (ab2 e)).2) := by
  constructor
  · simp only [driveGen, mkGen]
    rw [driveT_genBody_front fin pre vs [] (y :: post) hSeq]
    simp only [List.nil_append]
    rw [genBody, driveT_yielded_error _ _ _ _ hRej]
    simp [driveT]
  · exact driveT_yielded_error _ _ _ _ hRej

theorem claim2_witness :
    stepsTo [JSVal.fulfilledP (JSVal.vstr "a")] [JSVal.vstr "a"] = true
    ∧ isAwaitable (JSVal.rejectedP (JSVal.vstr "someError")) = true
    ∧ settle (normalizeValue (JSVal.rejectedP (JSVal.vstr "someError")))
        = Outcome.error (JSVal.vstr "someError")
    ∧ (driveGen (mkGen (fun _ => JSVal.vstr "c")
        ([JSVal.fulfilledP (JSVal.vstr "a")] ++
          JSVal.rejectedP (JSVal.vstr "someError") ::
            [JSVal.fulfilledP (JSVal.vstr "x")]))
      = (Outcome.error (JSVal.vstr "someError"),
         Event.resumed JSVal.undef ::
           ([JSVal.vstr "a"].map Event.resumed ++
             [Event.aborted (JSVal.vstr "someError")]))
    ∧ driveT (Step.yielded (JSVal.rejectedP (JSVal.vstr "someError"))
        (fun _ => Step.done JSVal.undef) (fun e => Step.thrown e))
      = ((driveT (Step.thrown (JSVal.vstr "someError"))).1,
         Event.aborted (JSVal.vstr "someError") ::
           (driveT (Step.thrown (JSVal.vstr "someError"))).2)) :=
  ⟨by decide, by decide, by decide,
    claim2_reject_aborts _ _ _ _ _ _ _ _ (by decide) (by decide) (by decide)⟩

/-- Claim C9: if a yielded awaitable that the drive reaches (after earlier
yields fulfilling in sequence) never settles, the whole drive's outcome is
`Outcome.never` — the model of a Result Future that is observably neither
fulfilled nor rejected after an arbitrarily long wait. The driver has no
timeout branch: `Outcome.never` is distinct from every fulfillment and
every rejection (second and third conjuncts), and the drive performs no
further events after the suspend point. -/
theorem claim9_never_settles (fin : List JSVal → JSVal)
    (pre post vs : List JSVal) (y : JSVal)
    (hSeq : stepsTo pre vs = true)
    (hNever : settle (normalizeValue y) = Outcome.never) :
    driveGen (mkGen fin (pre ++ y :: post))
      = (Outcome.never, Event.resumed JSVal.undef :: vs.map Event.resumed)
    ∧ (∀ w, (driveGen (mkGen fin (pre ++ y :: post))).1 ≠ Outcome.value w)
    ∧ (∀ e, (driveGen (mkGen fin (pre ++ y :: post))).1 ≠ Outcome.error e) := by
  have h : driveGen (mkGen fin (pre ++ y :: post))
      = (Outcome.never, Event.resumed JSVal.undef :: vs.map Event.resumed) := by
    simp only [driveGen, mkGen]
    rw [driveT_genBody_front fin pre vs [] (y :: post) hSeq]
    simp only [List.nil_append]
    rw [genBody, driveT_yielded_never _ _ _ hNever]
    simp
  refine ⟨h, ?_, ?_⟩
  · intro w; rw [h]; simp
  · intro e; rw [h]; simp

theorem claim9_witness :
    stepsTo [JSVal.fulfilledP (JSVal.vstr "a")] [JSVal.vstr "a"] = true
    ∧ settle (normalizeValue JSVal.pendingForever) = Outcome.never
    ∧ (driveGen (mkGen (fun _ => JSVal.vstr "c")
        ([JSVal.fulfilledP (JSVal.vstr "a")] ++ JSVal.pendingForever :: []))
      = (Outcome.never,
         Event.resumed JSVal.undef :: [JSVal.vstr "a"].map Event.resumed)
    ∧ (∀ w, (driveGen (mkGen (fun _ => JSVal.vstr "c")
        ([JSVal.fulfilledP (JSVal.vstr "a")] ++ JSVal.pendingForever :: []))).1
          ≠ Outcome.value w)
    ∧ (∀ e, (driveGen (mkGen (fun _ => JSVal.vstr "c")
        ([JSVal.fulfilledP (JSVal.vstr "a")] ++ JSVal.pendingForever :: []))).1
          ≠ Outcome.error e)) :=
  ⟨by decide, by decide,
    claim9_never_settles _ _ _ _ _ (by decide) (by decide)⟩

/-- Claim C10: a computation whose last action is a suspend point, with no
explicit terminal value afterwards, is modelled by a `genBody` whose final
value is the host's no-value `JSVal.undef` — as the host returns
`undefined` from a generator that falls off the end. Driving it fulfills
with `undefined`: the outcome is `Outcome.value JSVal.undef`, which is a
fulfillment (not a rejection) and not the last yielded value whenever that
value differs from `undefined`. -/
theorem claim10_implicit_undefined (ys vs : List JSVal)
    (hne : ys ≠ []) (hSeq : stepsTo ys vs = true) :
    driveGen (mkGen (fun _ => JSVal.undef) ys)
      = (Outcome.value JSVal.undef,
         Event.resumed JSVal.undef :: vs.map Event.resumed) := by
  simp only [driveGen, mkGen]
  rw [driveT_genBody (fun _ => JSVal.undef) ys vs [] hSeq]
  simp [normalizeValue, isAwaitable, settle]

theorem claim10_witness :
    ([JSVal.vstr "a"] : List JSVal) ≠ []
    ∧ stepsTo [JSVal.vstr "a"] [JSVal.vstr "a"] = true
    ∧ driveGen (mkGen (fun _ => JSVal.undef) [JSVal.vstr "a"])
      = (Outcome.value JSVal.undef,
         Event.resumed JSVal.undef :: [JSVal.vstr "a"].map Event.resumed) :=
  ⟨by decide, by decide,
    claim10_implicit_undefined _ _ (by decide) (by decide)⟩

/-- Claim C3: for an ordinary callable target `f` with arguments
`[a, b, c]` and binding context `ctx`, the Entry Dispatcher invokes `f`
exactly once, synchronously (it is applied directly, in the same step that
classifies the target), with exactly those arguments and that self-binding:
the trace is the single event `invoked ctx [a, b, c]`. The Result Future
settles to `settle v` for the return value `v`: fulfillment with `v` when
`v` is not awaitable, and chaining through `v` first when it is. -/
theorem claim3_callable_invoked_once (f : JSVal → List JSVal → CallResult)
    (ctx a b c v : JSVal) (h : f ctx [a, b, c] = CallResult.ret v) :
    coroutine ctx (Target.callable f) [a, b, c]
      = (settle v, [Event.invoked ctx [a, b, c]]) := by
  simp [coroutine, h]

theorem claim3_witness :
    (fun (ctx : JSVal) (args : List JSVal) =>
        CallResult.ret (JSVal.fulfilledP (JSVal.vstr "someValue")))
      JSVal.undef [JSVal.vnum 1, JSVal.vnum 2, JSVal.vnum 3]
      = CallResult.ret (JSVal.fulfilledP (JSVal.vstr "someValue"))
    ∧ coroutine JSVal.undef
        (Target.callable (fun _ _ =>
          CallResult.ret (JSVal.fulfilledP (JSVal.vstr "someValue"))))
        [JSVal.vnum 1, JSVal.vnum 2, JSVal.vnum 3]
      = (settle (JSVal.fulfilledP (JSVal.vstr "someValue")),
         [Event.invoked JSVal.undef [JSVal.vnum 1, JSVal.vnum 2, JSVal.vnum 3]]) :=
  ⟨rfl, claim3_callable_invoked_once _ _ _ _ _ _ rfl⟩

/-- Claim C4: an ordinary callable target that throws synchronously with
`E` gives a Result Future rejected with `E`, and no driver step ever
starts: the whole trace is the single `invoked` event — no second
invocation (no retry), no `resumed` and no `aborted` event (no resumable
computation is created or resumed). -/
theorem claim4_sync_throw_rejects (f : JSVal → List JSVal → CallResult)
    (ctx e : JSVal) (args : List JSVal)
    (h : f ctx args = CallResult.exn e) :
    coroutine ctx (Target.callable f) args
      = (Outcome.error e, [Event.invoked ctx args]) := by
  simp [coroutine, h]

theorem claim4_witness :
    (fun (ctx : JSVal) (args : List JSVal) =>
        CallResult.exn (JSVal.vstr "someError")) JSVal.undef []
      = CallResult.exn (JSVal.vstr "someError")
    ∧ coroutine JSVal.undef
        (Target.callable (fun _ _ => CallResult.exn (JSVal.vstr "someError")))
        []
      = (Outcome.error (JSVal.vstr "someError"),
         [Event.invoked JSVal.undef []]) :=
  ⟨rfl, claim4_sync_throw_rejects _ _ _ _ rfl⟩

/-- Claim C6: a factory value flowing through a driven computation as data
is never invoked by the driver — a `JSVal.factoryRef` is opaque data and
the Step Driver has no operation that invokes a value; only the Entry
Dispatcher invokes the top-level target. First conjunct: a driven
computation returning the factory reference fulfills the Result Future with
that same, unexecuted reference (the trace shows the only invocation is the
dispatcher invoking the outer target). Second conjunct: a yielded factory
reference is passed back into the computation unchanged by `resume`. -/
theorem claim6_factory_flows_as_data (n : Nat) (ctx : JSVal)
    (args : List JSVal) (res ab : JSVal → Step) :
    coroutine ctx
        (Target.factory (fun _ _ => fun _ => Step.done (JSVal.factoryRef n)))
        args
      = (Outcome.value (JSVal.factoryRef n),
         [Event.invoked ctx args, Event.resumed JSVal.undef])
    ∧ driveT (Step.yielded (JSVal.factoryRef n) res ab)
      = ((driveT (res (JSVal.factoryRef n))).1,
         Event.resumed (JSVal.factoryRef n) ::
           (driveT (res (JSVal.factoryRef n))).2) := by
  have hs : settle (normalizeValue (JSVal.factoryRef n))
      = Outcome.value (JSVal.factoryRef n) := by
    simp [normalizeValue, isAwaitable, settle]
  constructor
  · simp [coroutine, driveGen, driveT, hs]
  · exact driveT_yielded_value _ _ _ _ hs

/-- Claim C7: the Value Normalizer is a pure mapping (a function of its
argument alone, with no effects in the model): an awaitable value is
returned unchanged — the very same value, so no wrapper-of-wrapper and no
change of identity — and any other value is wrapped as the
immediately-fulfilled awaitable `fulfilledP w`, which settles to exactly
that value. It is idempotent, and normalization never changes the
observable settlement. -/
theorem claim7_normalizer_idempotent (v w u : JSVal)
    (hv : isAwaitable v = true) (hw : isAwaitable w = false) :
    normalizeValue v = v
    ∧ normalizeValue w = JSVal.fulfilledP w
    ∧ settle (JSVal.fulfilledP w) = Outcome.value w
    ∧ normalizeValue (normalizeValue u) = normalizeValue u
    ∧ settle (normalizeValue u) = settle u := by
  refine ⟨normalizeValue_of_awaitable v hv, by simp [normalizeValue, hw],
    ?_, ?_, settle_normalizeValue u⟩
  · rw [show settle (JSVal.fulfilledP w) = settle w from rfl]
    exact settle_of_not_awaitable w hw
  · cases u <;> simp [normalizeValue, isAwaitable]

theorem claim7_witness :
    isAwaitable (JSVal.fulfilledP (JSVal.vstr "p")) = true
    ∧ isAwaitable (JSVal.vnum 5) = false
    ∧ (normalizeValue (JSVal.fulfilledP (JSVal.vstr "p"))
        = JSVal.fulfilledP (JSVal.vstr "p")
    ∧ normalizeValue (JSVal.vnum 5) = JSVal.fulfilledP (JSVal.vnum 5)
    ∧ settle (JSVal.fulfilledP (JSVal.vnum 5)) = Outcome.value (JSVal.vnum 5)
    ∧ normalizeValue (normalizeValue (JSVal.rejectedP JSVal.undef))
        = normalizeValue (JSVal.rejectedP JSVal.undef)
    ∧ settle (normalizeValue (JSVal.rejectedP JSVal.undef))
        = settle (JSVal.rejectedP JSVal.undef)) :=
  ⟨by decide, by decide,
    claim7_normalizer_idempotent _ _ _ (by decide) (by decide)⟩

/-- Claim C8: the Result Future is single-assignment. From Pending, one
fulfillment attempt transitions to Fulfilled(value) and one rejection
attempt to Rejected(error) — the exactly-once transition — and once
settled, any further sequence of settlement attempts leaves the state and
its value unchanged; `applyAttempt` is a total function, so the ignored
attempts raise no error. -/
theorem claim8_single_assignment (v e : JSVal) (l : List SAttempt) :
    applyAttempt FState.pending (SAttempt.fulfillA v) = FState.fulfilledF v
    ∧ applyAttempt FState.pending (SAttempt.rejectA e) = FState.rejectedF e
    ∧ runAttempts (FState.fulfilledF v) l = FState.fulfilledF v
    ∧ runAttempts (FState.rejectedF e) l = FState.rejectedF e := by
  refine ⟨rfl, rfl, ?_, ?_⟩
  · induction l with
    | nil => rfl
    | cons a rest ih => cases a <;> simpa [runAttempts, applyAttempt] using ih
  · induction l with
    | nil => rfl
    | cons a rest ih => cases a <;> simpa [runAttempts, applyAttempt] using ih

lemma isAwaitable_futureOf (o : Outcome) : isAwaitable (futureOf o) = true := by
  cases o <;> rfl

lemma settle_normalizeValue_futureOf (s : Step) :
    settle (normalizeValue (futureOf (driveT s).1)) = (driveT s).1 := by
  rw [normalizeValue_of_awaitable _ (isAwaitable_futureOf _)]
  exact settle_futureOf_driveT s

/-- Claim C5: driving an outer computation whose suspend point yields the
Result Future of driving `inner` produces the same final outcome (value,
error, or pending forever) as driving the computation obtained by inlining
`inner`'s body at that suspend point (`inlineAt inner k ka`: `inner`'s
suspend points happen in place, its return value is awaited at the original
suspend point, and an uncaught inner error reaches the suspend point's
handler `ka` — exactly as the inner Result Future's rejection would be
injected there by `abort`). `inner`, `k` and `ka` are arbitrary, so the
equivalence applies identically at every nesting level. -/
theorem claim5_nested_inline (inner : Step) (k ka : JSVal → Step) :
    (driveT (Step.yielded (futureOf (driveT inner).1) k ka)).1
      = (driveT (inlineAt inner k ka)).1 := by
  induction inner with
  | done v =>
    rcases h : settle (normalizeValue v) with w | e
    · have h1 : (driveT (Step.done v)).1 = Outcome.value w := by
        simp [driveT, h]
      have h2 : settle (normalizeValue (futureOf (driveT (Step.done v)).1))
          = Outcome.value w := by rw [settle_normalizeValue_futureOf, h1]
      rw [driveT_yielded_value _ _ _ _ h2, inlineAt,
        driveT_yielded_value _ _ _ _ h]
    · have h1 : (driveT (Step.done v)).1 = Outcome.error e := by
        simp [driveT, h]
      have h2 : settle (normalizeValue (futureOf (driveT (Step.done v)).1))
          = Outcome.error e := by rw [settle_normalizeValue_futureOf, h1]
      rw [driveT_yielded_error _ _ _ _ h2, inlineAt,
        driveT_yielded_error _ _ _ _ h]
    · have h1 : (driveT (Step.done v)).1 = Outcome.never := by
        simp [driveT, h]
      have h2 : settle (normalizeValue (futureOf (driveT (Step.done v)).1))
          = Outcome.never := by rw [settle_normalizeValue_futureOf, h1]
      rw [driveT_yielded_never _ _ _ h2, inlineAt,
        driveT_yielded_never _ _ _ h]
  | thrown e =>
    have h1 : (driveT (Step.thrown e)).1 = Outcome.error e := rfl
    have h2 : settle (normalizeValue (futureOf (driveT (Step.thrown e)).1))
        = Outcome.error e := by rw [settle_normalizeValue_futureOf, h1]
    rw [driveT_yielded_error _ _ _ _ h2]
    rfl
  | yielded v res ab ihres ihab =>
    rcases hv : settle (normalizeValue v) with w | e
    · have h1 : (driveT (Step.yielded v res ab)).1 = (driveT (res w)).1 := by
        rw [driveT_yielded_value _ _ _ _ hv]
      have h3 : (driveT (inlineAt (Step.yielded v res ab) k ka)).1
          = (driveT (inlineAt (res w) k ka)).1 := by
        rw [show inlineAt (Step.yielded v res ab) k ka
            = Step.yielded v (fun u => inlineAt (res u) k ka)
              (fun e => inlineAt (ab e) k ka) from rfl,
          driveT_yielded_value _ _ _ _ hv]
      rw [h1, h3]
      exact ihres w
    · have h1 : (driveT (Step.yielded v res ab)).1 = (driveT (ab e)).1 := by
        rw [driveT_yielded_error _ _ _ _ hv]
      have h3 : (driveT (inlineAt (Step.yielded v res ab) k ka)).1
          = (driveT (inlineAt (ab e) k ka)).1 := by
        rw [show inlineAt (Step.yielded v res ab) k ka
            = Step.yielded v (fun u => inlineAt (res u) k ka)
              (fun e => inlineAt (ab e) k ka) from rfl,
          driveT_yielded_error _ _ _ _ hv]
      rw [h1, h3]
      exact ihab e
    · have h1 : (driveT (Step.yielded v res ab)).1 = Outcome.never := by
        rw [driveT_yielded_never _ _ _ hv]
      have h3 : (driveT (inlineAt (Step.yielded v res ab) k ka)).1
          = Outcome.never := by
        rw [show inlineAt (Step.yielded v res ab) k ka
            = Step.yielded v (fun u => inlineAt (res u) k ka)
              (fun e => inlineAt (ab e) k ka) from rfl,
          driveT_yielded_never _ _ _ hv]
      have h2 : settle (normalizeValue
          (futureOf (driveT (Step.yielded v res ab)).1)) = Outcome.never := by
        rw [settle_normalizeValue_futureOf, h1]
      rw [driveT_yielded_never _ _ _ h2, h3]
